import Mathlib

/-!
Verification of the QVD decoder of the qdata repository.

The decoder under scrutiny is the `QvdFile` / `QvdValue` implementation
(XML header parsing, symbol-table decoding, bit-packed index-table decoding
and row assembly).  The JavaScript code is shallowly embedded here:

* byte buffers are `List Nat` (each entry a byte value),
* JavaScript numbers that flow through `parseInt` are `Option Int`
  (`none` models `NaN`),
* JavaScript values produced by the xml2js parse (with `explicitArray: false`)
  are modelled by `JsValue`; property access on `undefined` raises a
  `TypeError`, modelled by `Except`,
* IEEE-754 doubles are kept opaque: a decoded double stores its 8 raw
  little-endian bytes (none of the verified claims computes with doubles),
* while-loops are embedded with explicit fuel; a fuel amount strictly larger
  than the number of iterations the JavaScript loop can perform is supplied
  at every call site, so fuel exhaustion (`QvdErr.diverge`) is also used to
  model JavaScript loops that provably never terminate (e.g. the NUL scan
  running past the end of the buffer, where `buf[p] !== 0` holds forever).
-/

set_option maxRecDepth 100000

namespace Qdata

/-- Model of a JavaScript value as produced by xml2js with
`explicitArray: false`: strings, plain objects, arrays, and `undefined`. -/
inductive JsValue where
  | str : String → JsValue
  | obj : List (String × JsValue) → JsValue
  | arr : List JsValue → JsValue
  | undef : JsValue

/-- Errors with which the embedded decoder can abort.  Each constructor
corresponds to one JavaScript exception site of the source. -/
inductive QvdErr where
  /-- `The XML header section does not exist or is not properly delimited` -/
  | noDelimiter
  /-- xml2js rejected the header document -/
  | xmlFail
  /-- `TypeError: Cannot read properties of undefined` -/
  | undefAccess
  /-- `TypeError: fields.map is not a function` (also `forEach`) -/
  | notAFunction
  /-- `Unknown data type: ...` thrown on an unrecognised symbol tag -/
  | unknownType (tag : Nat)
  /-- `typeByte.toString` with `typeByte === undefined` -/
  | undefToStr
  /-- `RangeError` from `Buffer.readIntLE` / `readDoubleLE` out of range -/
  | rangeError
  /-- the JavaScript loop would never terminate -/
  | diverge
  /-- `Index is out of bounds` thrown by `getRow` -/
  | outOfBounds
deriving DecidableEq, Repr

/-- Association-list lookup used for JavaScript property reads on objects. -/
def jsLookup : List (String × JsValue) → String → Option JsValue
  | [], _ => none
  | (k, v) :: rest, key => if k = key then some v else jsLookup rest key

/-- JavaScript property access `v[key]`.  On an object it yields the property
(or `undefined` when absent), on a string or an array it yields `undefined`
(no such named property), and on `undefined` it throws a `TypeError`. -/
def jsGetE : JsValue → String → Except QvdErr JsValue
  | JsValue.obj kvs, key =>
    match jsLookup kvs key with
    | some v => Except.ok v
    | none => Except.ok JsValue.undef
  | JsValue.str _, _ => Except.ok JsValue.undef
  | JsValue.arr _, _ => Except.ok JsValue.undef
  | JsValue.undef, _ => Except.error QvdErr.undefAccess

/-- Decimal digit test for `parseInt`. -/
def isDigitChar (c : Char) : Bool :=
  decide (('0' : Char) ≤ c) && decide (c ≤ ('9' : Char))

/-- Value of a non-empty list of decimal digits. -/
def digitsVal (cs : List Char) : Nat :=
  cs.foldl (fun acc c => acc * 10 + (c.toNat - ('0' : Char).toNat)) 0

/-- JavaScript `parseInt(s, 10)`: skip leading whitespace, optional sign,
then a longest prefix of decimal digits; no digits means `NaN` (`none`). -/
def parseIntStr (s : String) : Option Int :=
  let cs := s.toList.dropWhile fun c => c = ' ' ∨ c = '\t' ∨ c = '\n' ∨ c = '\r'
  match cs with
  | '-' :: rest =>
    let ds := rest.takeWhile isDigitChar
    if ds.isEmpty then none else some (-(digitsVal ds : Int))
  | '+' :: rest =>
    let ds := rest.takeWhile isDigitChar
    if ds.isEmpty then none else some ((digitsVal ds : Int))
  | rest =>
    let ds := rest.takeWhile isDigitChar
    if ds.isEmpty then none else some ((digitsVal ds : Int))

/-- JavaScript `parseInt(v, 10)` applied to a decoded header value: the value
is coerced to a string first (`undefined` → `"undefined"` → `NaN`, an object
→ `"[object Object]"` → `NaN`, an array → its joined elements, whose leading
characters come from its first element). -/
def jsParseInt : JsValue → Option Int
  | JsValue.str s => parseIntStr s
  | JsValue.undef => none
  | JsValue.obj _ => none
  | JsValue.arr (JsValue.str s :: _) => parseIntStr s
  | JsValue.arr _ => none

/-- Addition of JavaScript numbers: `NaN` (`none`) is absorbing. -/
def addO : Option Int → Option Int → Option Int
  | some a, some b => some (a + b)
  | _, _ => none

/-- JavaScript `a < b` on numbers: any comparison with `NaN` is `false`. -/
def ltO : Option Int → Option Int → Bool
  | some a, some b => decide (a < b)
  | _, _ => false

/-- Index coercion of `Array.prototype.slice` / `TypedArray.subarray`:
`NaN` becomes `0`, negative indices count from the end, and the result is
clamped into `[0, len]`. -/
def resolveIdx (len : Nat) : Option Int → Nat
  | none => 0
  | some x => if x < 0 then ((len : Int) + x).toNat else min x.toNat len

/-- JavaScript `l.slice(s, e)` (also `Buffer.subarray(s, e)` — both use the
same index coercion and produce the elements in `[s, e)` after clamping). -/
def jsSlice {α : Type} (l : List α) (s e : Option Int) : List α :=
  (l.take (resolveIdx l.length e)).drop (resolveIdx l.length s)

/-- JavaScript integer array indexing `l[i]`: `undefined` (`none`) outside
`[0, length)`. -/
def arrGetI {α : Type} (l : List α) (i : Int) : Option α :=
  if 0 ≤ i then l.get? i.toNat else none

/-- JavaScript array indexing by a possibly-`NaN` number: `l[NaN]` is
`undefined`. -/
def arrGetO {α : Type} (l : List α) : Option Int → Option α
  | none => none
  | some i => arrGetI l i

instance {ε α : Type} [DecidableEq ε] [DecidableEq α] : DecidableEq (Except ε α) := fun x y =>
  match x, y with
  | Except.ok a, Except.ok b =>
    if h : a = b then isTrue (by rw [h])
    else isFalse (by intro hh; injection hh; exact h ‹_›)
  | Except.error a, Except.error b =>
    if h : a = b then isTrue (by rw [h])
    else isFalse (by intro hh; injection hh; exact h ‹_›)
  | Except.ok _, Except.error _ => isFalse (fun hh => Except.noConfusion hh)
  | Except.error _, Except.ok _ => isFalse (fun hh => Except.noConfusion hh)

/-- JavaScript `index >= bound` where the bound may be `NaN`: comparisons
with `NaN` are `false`. -/
def jsGE (i : Int) : Option Int → Bool
  | some m => decide (m ≤ i)
  | none => false

/-- A decoded cell value: the result of primary-value resolution, or the
JavaScript `undefined` produced by the optional-chained lookup of a missing
symbol. -/
inductive Cell where
  | str : String → Cell
  | int : Int → Cell
  /-- an IEEE-754 double, kept opaque as its 8 little-endian bytes -/
  | dbl : List Nat → Cell
  | null : Cell
  | undef : Cell
deriving DecidableEq, Repr

/-- Embedding of the `QvdValue` class: an optional integer value, an optional
(opaque) double value and an optional string value. -/
structure QvdValue where
  intValue : Option Int
  doubleValue : Option (List Nat)
  stringValue : Option String
deriving DecidableEq, Repr

/-- `QvdValue.toPrimaryValue`: the string value if present, else the integer
value, else the double value, else `null`. -/
def QvdValue.toPrimaryValue (v : QvdValue) : Cell :=
  match v.stringValue with
  | some s => Cell.str s
  | none =>
    match v.intValue with
    | some n => Cell.int n
    | none =>
      match v.doubleValue with
      | some d => Cell.dbl d
      | none => Cell.null

/-- `QvdValue.fromIntValue`. -/
def QvdValue.fromIntValue (n : Int) : QvdValue := ⟨some n, none, none⟩

/-- `QvdValue.fromDoublValue` (the source spells it without the `e`). -/
def QvdValue.fromDoublValue (d : List Nat) : QvdValue := ⟨none, some d, none⟩

/-- `QvdValue.fromStringValue`. -/
def QvdValue.fromStringValue (s : String) : QvdValue := ⟨none, none, some s⟩

/-- `QvdValue.fromDualIntValue`. -/
def QvdValue.fromDualIntValue (n : Int) (s : String) : QvdValue :=
  ⟨some n, none, some s⟩

/-- `QvdValue.fromDualDoubleValue`. -/
def QvdValue.fromDualDoubleValue (d : List Nat) (s : String) : QvdValue :=
  ⟨none, some d, some s⟩

/-! ### XML header parsing (model of xml2js with `explicitArray: false`)

The QVD header is an XML document.  The source hands the header bytes to
`xml.parseStringPromise(headerBuffer.toString(), {explicitArray: false})`.
We model the relevant xml2js behaviour: elements whose content is pure text
collapse to that string, elements with children collapse to an object mapping
child names to their collapsed values, where a name occurring once maps to
the single collapsed value (this is the meaning of `explicitArray: false`)
and a name occurring several times maps to an array of the values in
document order; whitespace-only text between elements is ignored, and
trailing data after the root element (the `CR LF NUL` delimiter bytes that
the source includes in the header buffer) is tolerated. -/

/-- XML element tree: a name together with child elements and text content. -/
inductive Xml where
  | elem : String → List Xml → String → Xml

/-- Name of an XML element. -/
def Xml.name : Xml → String
  | Xml.elem n _ _ => n

/-- Lexer tokens of the XML subset used by QVD headers. -/
inductive Tok where
  | tagOpen : String → Tok
  | tagClose : String → Tok
  | text : String → Tok

/-- Characters allowed in an element name (anything up to a delimiter). -/
def isNameChar (c : Char) : Bool :=
  decide (c ≠ '<') && decide (c ≠ '>') && decide (c ≠ '/') && decide (c ≠ ' ')

/-- Whitespace-only text (ignored between elements, as xml2js does). -/
def isWsText (cs : List Char) : Bool :=
  cs.all fun c => c = ' ' || c = '\n' || c = '\r' || c = '\t'

/-- Tokenize the XML subset; fuel-driven, `none` on malformed input. -/
def tokenize : Nat → List Char → Option (List Tok)
  | 0, _ => none
  | _ + 1, [] => some []
  | fuel + 1, cs =>
    match cs with
    | '<' :: '/' :: rest =>
      let nm := rest.takeWhile isNameChar
      match rest.drop nm.length with
      | '>' :: r2 => (tokenize fuel r2).map (Tok.tagClose (String.mk nm) :: ·)
      | _ => none
    | '<' :: rest =>
      let nm := rest.takeWhile isNameChar
      match rest.drop nm.length with
      | '>' :: r2 => (tokenize fuel r2).map (Tok.tagOpen (String.mk nm) :: ·)
      | _ => none
    | _ =>
      let txt := cs.takeWhile (· ≠ '<')
      (tokenize fuel (cs.drop txt.length)).map fun ts =>
        if isWsText txt then ts else Tok.text (String.mk txt) :: ts

/-- Build the list of consecutive sibling elements from a token stream,
stopping at a closing tag or at the end of the stream. -/
def buildElems : Nat → List Tok → Option (List Xml × List Tok)
  | 0, _ => none
  | fuel + 1, toks =>
    match toks with
    | Tok.tagOpen nm :: rest =>
      match rest with
      | Tok.text t :: Tok.tagClose nm2 :: r2 =>
        if nm2 = nm then
          (buildElems fuel r2).map fun p => (Xml.elem nm [] t :: p.1, p.2)
        else none
      | Tok.tagClose nm2 :: r2 =>
        if nm2 = nm then
          (buildElems fuel r2).map fun p => (Xml.elem nm [] "" :: p.1, p.2)
        else none
      | _ =>
        match buildElems fuel rest with
        | some (children, Tok.tagClose nm2 :: r2) =>
          if nm2 = nm && !children.isEmpty then
            (buildElems fuel r2).map fun p => (Xml.elem nm children "" :: p.1, p.2)
          else none
        | _ => none
    | _ => some ([], toks)

/-- Append a collapsed child under its name: a repeated name turns the entry
into an array (xml2js `explicitArray: false` behaviour). -/
def addChild : List (String × JsValue) → String → JsValue → List (String × JsValue)
  | [], nm, v => [(nm, v)]
  | (k, w) :: rest, nm, v =>
    if k = nm then
      match w with
      | JsValue.arr l => (k, JsValue.arr (l ++ [v])) :: rest
      | _ => (k, JsValue.arr [w, v]) :: rest
    else (k, w) :: addChild rest nm v

/-- Collapse an element to its JavaScript value (fuel covers tree depth). -/
def collapseX : Nat → Xml → JsValue
  | 0, _ => JsValue.undef
  | fuel + 1, Xml.elem _ children t =>
    match children with
    | [] => JsValue.str t
    | _ =>
      JsValue.obj <|
        children.foldl (fun acc c => addChild acc c.name (collapseX fuel c)) []

/-- Model of `xml.parseStringPromise(s, {explicitArray: false})`: the result
object maps the root element name to its collapsed value. -/
def xmlToJs (cs : List Char) : Option JsValue :=
  match tokenize (cs.length + 1) cs with
  | none => none
  | some toks =>
    match buildElems (toks.length + 1) toks with
    | some (root :: _, _) =>
      some (JsValue.obj [(root.name, collapseX (toks.length + 1) root)])
    | _ => none

/-! ### Delimiter search and byte/string helpers -/

/-- `buffer.indexOf('\r\n\0')`: index of the first occurrence of the
three-byte header delimiter `CR LF NUL`. -/
def findDelim : List Nat → Option Nat
  | [] => none
  | b :: rest =>
    if b = 13 ∧ rest.get? 0 = some 10 ∧ rest.get? 1 = some 0 then some 0
    else (findDelim rest).map (· + 1)

/-- The delimiter `CR LF NUL` occurs at position `i` of the buffer. -/
def delimAt (l : List Nat) (i : Nat) : Prop :=
  l.get? i = some 13 ∧ l.get? (i + 1) = some 10 ∧ l.get? (i + 2) = some 0

/-- Bytes of a string, one byte per character (the headers fed to the decoder
are ASCII; this models `Buffer.toString` restricted to such data). -/
def strBytes (s : String) : List Nat :=
  s.toList.map Char.toNat

/-- Characters of a byte range `[start, stop)` of the buffer, each byte mapped
directly to the code point of one character (`String.fromCharCode`). -/
def readStr (buf : List Nat) (start stop : Int) : String :=
  String.mk (((buf.drop start.toNat).take (stop - start).toNat).map Char.ofNat)

/-- Little-endian value of a byte list. -/
def leVal : List Nat → Nat
  | [] => 0
  | b :: rest => b + 256 * leVal rest

/-- `Buffer.readIntLE(0, n)`: two's-complement signed little-endian integer
over the `n` bytes of the buffer. -/
def readIntLE (bs : List Nat) : Int :=
  let v := leVal bs
  let m := 2 ^ (8 * bs.length)
  if 2 * v ≥ m then (v : Int) - (m : Int) else (v : Int)

/-- First index `q ≥ max(start, 0)` of a zero byte in the buffer (the NUL
scan of the string symbol decoder); `none` when the scan would run past the
end of the buffer, where the JavaScript loop never terminates because
`undefined !== 0`.  Negative positions hold `undefined` and are likewise
skipped, so the scan effectively starts at `max(start, 0)`. -/
def scanNul (buf : List Nat) (start : Int) : Option Int :=
  match (buf.drop start.toNat).findIdx? (· = 0) with
  | some i => some ((start.toNat + i : Nat) : Int)
  | none => none

/-! ### Symbol table decoding (`QvdFile._parseSymbolTable`) -/

/-- Byte read `buf[p]` with a JavaScript index (`undefined` outside range). -/
def byteAt (buf : List Nat) (p : Int) : Option Nat :=
  arrGetI buf p

/-- One field's symbol scan: the embedded
`for (let pointer = symbolsOffset; pointer < symbolsOffset + symbolsLength; pointer++)`
loop of `_parseSymbolTable`.  `endI` is `symbolsOffset + symbolsLength`; the
pointer advances by at least two positions per iteration, so the fuel
supplied at the call site strictly exceeds the possible iteration count. -/
def symLoop (buf : List Nat) (endI : Int) :
    Nat → Int → List QvdValue → Except QvdErr (List QvdValue)
  | 0, _, _ => Except.error QvdErr.diverge
  | fuel + 1, p, acc =>
    if p < endI then
      match byteAt buf p with
      | none => Except.error QvdErr.undefToStr
      | some t =>
        if t = 1 then
          -- Integer value (4 bytes, little endian)
          let bs := jsSlice buf (some (p + 1)) (some (p + 5))
          if bs.length = 0 then Except.error QvdErr.rangeError
          else symLoop buf endI fuel (p + 5)
            (acc ++ [QvdValue.fromIntValue (readIntLE bs)])
        else if t = 2 then
          -- Double value (8 bytes, little endian)
          let bs := jsSlice buf (some (p + 1)) (some (p + 9))
          if bs.length < 8 then Except.error QvdErr.rangeError
          else symLoop buf endI fuel (p + 9)
            (acc ++ [QvdValue.fromDoublValue bs])
        else if t = 4 then
          -- String value (NUL terminated)
          match scanNul buf (p + 1) with
          | none => Except.error QvdErr.diverge
          | some q => symLoop buf endI fuel (q + 1)
              (acc ++ [QvdValue.fromStringValue (readStr buf (p + 1) q)])
        else if t = 5 then
          -- Dual integer value followed by a NUL terminated string
          let bs := jsSlice buf (some (p + 1)) (some (p + 5))
          if bs.length = 0 then Except.error QvdErr.rangeError
          else
            match scanNul buf (p + 5) with
            | none => Except.error QvdErr.diverge
            | some q => symLoop buf endI fuel (q + 1)
                (acc ++ [QvdValue.fromDualIntValue (readIntLE bs) (readStr buf (p + 5) q)])
        else if t = 6 then
          -- Dual double value followed by a NUL terminated string
          let bs := jsSlice buf (some (p + 1)) (some (p + 9))
          if bs.length < 8 then Except.error QvdErr.rangeError
          else
            match scanNul buf (p + 9) with
            | none => Except.error QvdErr.diverge
            | some q => symLoop buf endI fuel (q + 1)
                (acc ++ [QvdValue.fromDualDoubleValue bs (readStr buf (p + 9) q)])
        else Except.error (QvdErr.unknownType t)
    else Except.ok acc

/-- Symbol decoding of one field: read `Offset` and `Length`, then run the
scan loop over the shared symbol buffer.  When either bound is `NaN` the
loop condition is `false` from the start and the field gets no symbols. -/
def fieldSymbols (symbolBuffer : List Nat) (f : JsValue) :
    Except QvdErr (List QvdValue) := do
  let offV ← jsGetE f "Offset"
  let lenV ← jsGetE f "Length"
  match jsParseInt offV, addO (jsParseInt offV) (jsParseInt lenV) with
  | some o, some e => symLoop symbolBuffer e ((e - o).toNat + 1) o []
  | _, _ => Except.ok []

/-- `QvdFile._parseSymbolTable`: one ordered symbol list per field.  The
field list must be a JavaScript array, otherwise `fields.map` throws a
`TypeError` — with `explicitArray: false` a single `QvdFieldHeader` element
collapses to a plain object and that is exactly what happens. -/
def parseSymbolTable (buffer : List Nat) (header : JsValue)
    (symbolTableOffset : Nat) (indexTableOffset : Option Int) :
    Except QvdErr (List (List QvdValue)) := do
  let th ← jsGetE header "QvdTableHeader"
  let fs ← jsGetE th "Fields"
  let fieldsV ← jsGetE fs "QvdFieldHeader"
  let symbolBuffer := jsSlice buffer (some (symbolTableOffset : Int)) indexTableOffset
  match fieldsV with
  | JsValue.arr fields => fields.mapM (fieldSymbols symbolBuffer)
  | _ => Except.error QvdErr.notAFunction

/-! ### Index table decoding (`QvdFile._parseIndexTable`) -/

/-- The 8-bit most-significant-bit-first expansion of a byte, as produced by
`('00000000' + byte.toString(2)).slice(-8)` followed by `split` and
per-character `parseInt`. -/
def toBin8 (b : Nat) : List Nat :=
  [b / 128 % 2, b / 64 % 2, b / 32 % 2, b / 16 % 2,
   b / 8 % 2, b / 4 % 2, b / 2 % 2, b % 2]

/-- Concatenation of the per-byte expansions (the `reduce` building the bit
string). -/
def flatBits : List Nat → List Nat
  | [] => []
  | b :: rest => toBin8 b ++ flatBits rest

/-- The bit mask of one index record: reverse the record's bytes, expand each
byte to its 8-bit binary representation, concatenate, and reverse the whole
bit string. -/
def recordMask (record : List Nat) : List Nat :=
  (flatBits record.reverse).reverse

/-- The `reduce((value, bit, index) => value + bit * 2 ** index, 0)` of
`_convertBitsToInt32`, with the running index and accumulator explicit. -/
def convGo : List Nat → Nat → Nat → Nat
  | [], _, value => value
  | b :: rest, index, value => convGo rest (index + 1) (value + b * 2 ^ index)

/-- `QvdFile._convertBitsToInt32`: positional binary-to-integer conversion,
bit `i` of the list contributing `2 ^ i`; `0` for the empty list. -/
def convertBitsToInt32 (bits : List Nat) : Nat :=
  if bits.isEmpty then 0 else convGo bits 0 0

/-- Symbol index of one field for one record: `0` when `bitWidth === 0`, the
converted bit slice `[bitOffset, bitOffset + bitWidth)` otherwise, plus the
field's `bias` in either case. -/
def fieldSymbolIndexOf (mask : List Nat) (bitOffset bitWidth bias : Option Int) :
    Option Int :=
  let symbolIndex : Option Int :=
    if bitWidth = some 0 then some 0
    else some ((convertBitsToInt32 (jsSlice mask bitOffset (addO bitOffset bitWidth)) : Nat) : Int)
  addO symbolIndex bias

/-- Symbol indices of all fields for one record (`fields.forEach` body).  The
field list must be an array or `forEach` throws a `TypeError`; note that the
source only evaluates `fields.forEach` inside the record loop, so an empty
index buffer never touches `fields`. -/
def recordIndices (fieldsV : JsValue) (mask : List Nat) :
    Except QvdErr (List (Option Int)) :=
  match fieldsV with
  | JsValue.arr fields => fields.mapM fun f => do
      let boV ← jsGetE f "BitOffset"
      let bwV ← jsGetE f "BitWidth"
      let biV ← jsGetE f "Bias"
      Except.ok (fieldSymbolIndexOf mask (jsParseInt boV) (jsParseInt bwV) (jsParseInt biV))
  | _ => Except.error QvdErr.notAFunction

/-- The record loop of `_parseIndexTable`:
`for (let pointer = 0; pointer < indexBuffer.length; pointer += recordSize)`.
A `NaN` record size makes the loop exit right after its first iteration
(`NaN < length` is `false`); a record size `≤ 0` makes the JavaScript loop
run forever. -/
def idxLoop (buf : List Nat) (fieldsV : JsValue) (recordSize : Option Int) :
    Nat → Option Int → List (List (Option Int)) →
    Except QvdErr (List (List (Option Int)))
  | 0, _, _ => Except.error QvdErr.diverge
  | fuel + 1, pO, acc =>
    match pO with
    | none => Except.ok acc
    | some p =>
      if p < (buf.length : Int) then do
        let record := jsSlice buf (some p) (addO (some p) recordSize)
        let idxs ← recordIndices fieldsV (recordMask record)
        match recordSize with
        | none => Except.ok (acc ++ [idxs])
        | some r =>
          if r ≤ 0 then Except.error QvdErr.diverge
          else idxLoop buf fieldsV recordSize fuel (some (p + r)) (acc ++ [idxs])
      else Except.ok acc

/-- `QvdFile._parseIndexTable`: slice the index buffer (note the `+ 1` the
source adds to the declared length) and decode each fixed-size record. -/
def parseIndexTable (buffer : List Nat) (header : JsValue)
    (indexTableOffset : Option Int) :
    Except QvdErr (List (List (Option Int))) := do
  let th ← jsGetE header "QvdTableHeader"
  let fs ← jsGetE th "Fields"
  let fieldsV ← jsGetE fs "QvdFieldHeader"
  let rszV ← jsGetE th "RecordByteSize"
  let lenV ← jsGetE th "Length"
  let indexBuffer := jsSlice buffer indexTableOffset
    (addO (addO indexTableOffset (jsParseInt lenV)) (some 1))
  idxLoop indexBuffer fieldsV (jsParseInt rszV) (indexBuffer.length + 2) (some 0) []

/-! ### Header parsing, loading, and row access -/

/-- `QvdFile._parseHeader`: find the `CR LF NUL` delimiter (its absence is
fatal), parse the XML header (delimiter bytes included, as in the source)
and compute the symbol and index section offsets. -/
def parseHeader (buffer : List Nat) :
    Except QvdErr (JsValue × Nat × Option Int) :=
  match findDelim buffer with
  | none => Except.error QvdErr.noDelimiter
  | some i =>
    let headerBytes := buffer.take (i + 3)
    match xmlToJs (headerBytes.map Char.ofNat) with
    | none => Except.error QvdErr.xmlFail
    | some hdr =>
      (jsGetE hdr "QvdTableHeader").bind fun th =>
        (jsGetE th "Offset").map fun offV =>
          (hdr, i + 3, addO (some ((i + 3 : Nat) : Int)) (jsParseInt offV))

/-- A loaded QVD file: the fields of the `QvdFile` instance after `load()`. -/
structure QvdFileState where
  buffer : List Nat
  header : JsValue
  symbolTableOffset : Nat
  indexTableOffset : Option Int
  symbolTable : List (List QvdValue)
  indexTable : List (List (Option Int))

/-- `QvdFile.load` on an in-memory buffer: header, symbol table and index
table parsing in sequence; any thrown error aborts the load. -/
def load (buffer : List Nat) : Except QvdErr QvdFileState := do
  let (hdr, so, io) ← parseHeader buffer
  let st ← parseSymbolTable buffer hdr so io
  let it ← parseIndexTable buffer hdr io
  Except.ok ⟨buffer, hdr, so, io, st, it⟩

/-- `QvdFile.numberOfRows`: `parseInt` of the header's `NoOfRecords`
attribute, re-read from the header on every access. -/
def numberOfRows (s : QvdFileState) : Except QvdErr (Option Int) := do
  let th ← jsGetE s.header "QvdTableHeader"
  let v ← jsGetE th "NoOfRecords"
  Except.ok (jsParseInt v)

/-- One cell of a row: the optional-chained
`this._symbolTable[fieldIndex][symbolIndex]?.toPrimaryValue()` given the
field's symbol column. -/
def cellOf (col : List QvdValue) (si : Option Int) : Cell :=
  match arrGetO col si with
  | some sym => sym.toPrimaryValue
  | none => Cell.undef

/-- Resolution of one record into primary values, field by field (the two
`map` calls of `getRow`); `this._symbolTable[fieldIndex]` being `undefined`
for a missing column would make the subsequent indexing throw. -/
def resolveRow (tbl : List (List QvdValue)) :
    List (Option Int) → Nat → Except QvdErr (List Cell)
  | [], _ => Except.ok []
  | si :: rest, f =>
    match tbl.get? f with
    | none => Except.error QvdErr.undefAccess
    | some col => do
      let cells ← resolveRow tbl rest (f + 1)
      Except.ok (cellOf col si :: cells)

/-- `QvdFile.getRow`: throw `Index is out of bounds` when
`index >= numberOfRows`, then resolve `this._indexTable[index]`; a negative
(or otherwise unpopulated) index makes `this._indexTable[index]` `undefined`
and the subsequent `.map` throws a `TypeError` instead. -/
def getRow (s : QvdFileState) (index : Int) : Except QvdErr (List Cell) := do
  let n ← numberOfRows s
  if jsGE index n then Except.error QvdErr.outOfBounds
  else
    match arrGetI s.indexTable index with
    | none => Except.error QvdErr.undefAccess
    | some rec => resolveRow s.symbolTable rec 0

/-! ### Concrete input files used as witnesses and counterexamples -/

/-- XML header of one field, named with its symbol/bit layout attributes. -/
def fieldXml (nm off len bo bw bias : String) : String :=
  "<QvdFieldHeader><FieldName>" ++ nm ++ "</FieldName><Offset>" ++ off ++
  "</Offset><Length>" ++ len ++ "</Length><BitOffset>" ++ bo ++
  "</BitOffset><BitWidth>" ++ bw ++ "</BitWidth><Bias>" ++ bias ++
  "</Bias></QvdFieldHeader>"

/-- XML header of a whole table. -/
def tableXml (fields nRec recSize symLen idxLen : String) : String :=
  "<QvdTableHeader><Fields>" ++ fields ++ "</Fields><NoOfRecords>" ++ nRec ++
  "</NoOfRecords><RecordByteSize>" ++ recSize ++
  "</RecordByteSize><Offset>" ++ symLen ++ "</Offset><Length>" ++ idxLen ++
  "</Length></QvdTableHeader>"

/-- Full file bytes: XML header, `CR LF NUL` delimiter, symbol section,
index section. -/
def mkFile (hdr : String) (symBytes idxBytes : List Nat) : List Nat :=
  strBytes hdr ++ [13, 10, 0] ++ symBytes ++ idxBytes

/-- A well-formed two-field, two-row file: field `A` with string symbols
`"x"`, `"y"` (`bitWidth` 1) and field `B` with the single integer symbol `7`
(`bitWidth` 0). -/
def goodFile : List Nat :=
  mkFile
    (tableXml (fieldXml "A" "0" "6" "0" "1" "0" ++ fieldXml "B" "6" "5" "0" "0" "0")
      "2" "1" "11" "2")
    [4, 120, 0, 4, 121, 0, 1, 7, 0, 0, 0]
    [0, 1]

/-- The one-field, two-row file of the concrete scenario: field `A` with the
two dual integer+string symbols `(10, "10")` and `(20, "20")`, `bitWidth` 1,
`bitOffset` 0, `bias` 0, and one-byte index records `0x00`, `0x01`. -/
def c4File : List Nat :=
  mkFile
    (tableXml (fieldXml "A" "0" "16" "0" "1" "0") "2" "1" "16" "2")
    [5, 10, 0, 0, 0, 49, 48, 0, 5, 20, 0, 0, 0, 50, 48, 0]
    [0, 1]

/-- Like `goodFile` but declaring `NoOfRecords` 5 while the index section
still decodes to 2 records. -/
def c5File : List Nat :=
  mkFile
    (tableXml (fieldXml "A" "0" "6" "0" "1" "0" ++ fieldXml "B" "6" "5" "0" "0" "0")
      "5" "1" "11" "2")
    [4, 120, 0, 4, 121, 0, 1, 7, 0, 0, 0]
    [0, 1]

/-- Like `goodFile` but with a non-numeric `NoOfRecords` attribute. -/
def c6File : List Nat :=
  mkFile
    (tableXml (fieldXml "A" "0" "6" "0" "1" "0" ++ fieldXml "B" "6" "5" "0" "0" "0")
      "abc" "1" "11" "2")
    [4, 120, 0, 4, 121, 0, 1, 7, 0, 0, 0]
    [0, 1]

/-- Like `goodFile` but with a non-numeric `RecordByteSize` attribute. -/
def c6bFile : List Nat :=
  mkFile
    (tableXml (fieldXml "A" "0" "6" "0" "1" "0" ++ fieldXml "B" "6" "5" "0" "0" "0")
      "2" "abc" "11" "2")
    [4, 120, 0, 4, 121, 0, 1, 7, 0, 0, 0]
    [0, 1]

/-- A file whose field `A` declares a symbol range of 3 bytes but whose only
symbol is an integer symbol occupying 5 bytes: the payload overruns the
declared range into field `B`'s range (which starts at offset 5). -/
def c7File : List Nat :=
  mkFile
    (tableXml (fieldXml "A" "0" "3" "0" "1" "0" ++ fieldXml "B" "5" "3" "1" "1" "0")
      "1" "1" "8" "1")
    [1, 10, 0, 0, 0, 4, 66, 0]
    [0]

/-- Like `goodFile` but field `A` declares `bias` 7, so the decoded symbol
indices (7 and 8) lie outside `A`'s two-symbol list. -/
def c10File : List Nat :=
  mkFile
    (tableXml (fieldXml "A" "0" "6" "0" "1" "7" ++ fieldXml "B" "6" "5" "0" "0" "0")
      "2" "1" "11" "2")
    [4, 120, 0, 4, 121, 0, 1, 7, 0, 0, 0]
    [0, 1]

/-- A decoded state slot used when a load result must be projected totally. -/
def loadedOrEmpty (r : Except QvdErr QvdFileState) : QvdFileState :=
  match r with
  | Except.ok s => s
  | Except.error _ => ⟨[], JsValue.undef, 0, none, [], []⟩

/-- The decoded state of `goodFile`. -/
def goodState : QvdFileState := loadedOrEmpty (load goodFile)

/-- The decoded state of `c10File`. -/
def c10State : QvdFileState := loadedOrEmpty (load c10File)

/-! ### General lemmas -/

theorem findDelim_eq_none_iff (l : List Nat) :
    findDelim l = none ↔ ∀ i, ¬ delimAt l i := by
  induction l with
  | nil =>
    constructor
    · intro _ i hi
      exact Option.noConfusion hi.1
    · intro _
      rfl
  | cons b rest ih =>
    constructor
    · intro h i hi
      by_cases hc : b = 13 ∧ rest.get? 0 = some 10 ∧ rest.get? 1 = some 0
      · rw [findDelim, if_pos hc] at h
        exact Option.noConfusion h
      · rw [findDelim, if_neg hc] at h
        have hrest : findDelim rest = none := by
          cases hfd : findDelim rest with
          | none => rfl
          | some v => rw [hfd] at h; exact Option.noConfusion h
        cases i with
        | zero =>
          rcases hi with ⟨h1, h2, h3⟩
          exact hc ⟨Option.some.inj h1, h2, h3⟩
        | succ j =>
          rcases hi with ⟨h1, h2, h3⟩
          exact ih.mp hrest j ⟨h1, h2, h3⟩
    · intro h
      have hc : ¬ (b = 13 ∧ rest.get? 0 = some 10 ∧ rest.get? 1 = some 0) := by
        intro hc
        exact h 0 ⟨congrArg some hc.1, hc.2.1, hc.2.2⟩
      have hrest : ∀ i, ¬ delimAt rest i := fun i hi => h (i + 1) hi
      rw [findDelim, if_neg hc, ih.mpr hrest]
      rfl

/-- Core specification of `resolveRow`: when every referenced column exists,
the resolution succeeds and each cell is the optional-chained primary value
of the looked-up symbol. -/
theorem resolveRow_ok (tbl : List (List QvdValue)) :
    ∀ (rec : List (Option Int)) (f : Nat), f + rec.length ≤ tbl.length →
      ∃ row, resolveRow tbl rec f = Except.ok row ∧
        row.length = rec.length ∧
        (∀ k si col, rec.get? k = some si → tbl.get? (f + k) = some col →
          row.get? k = some (cellOf col si)) := by
  intro rec
  induction rec with
  | nil =>
    intro f _
    refine ⟨[], rfl, rfl, ?_⟩
    intro k si col hk
    simp [List.get?] at hk
  | cons si rest ih =>
    intro f h
    have hf : f < tbl.length := by
      simp only [List.length_cons] at h; omega
    obtain ⟨col, hcol⟩ : ∃ col, tbl.get? f = some col :=
      ⟨tbl.get ⟨f, hf⟩, List.get?_eq_get hf⟩
    obtain ⟨row, hrow, hlen, hspec⟩ := ih (f + 1) (by
      simp only [List.length_cons] at h; omega)
    refine ⟨cellOf col si :: row, ?_, by simp [hlen], ?_⟩
    · simp only [resolveRow, hcol, hrow]
      rfl
    · intro k si2 col2 hk hcol2
      cases k with
      | zero =>
        simp only [List.get?] at hk ⊢
        rw [Nat.add_zero] at hcol2
        rw [hcol] at hcol2
        cases hk; cases hcol2
        rfl
      | succ j =>
        simp only [List.get?] at hk ⊢
        have hcol2j : tbl.get? (f + 1 + j) = some col2 := by
          rw [show f + 1 + j = f + (j + 1) by omega]; exact hcol2
        exact hspec j si2 col2 hk hcol2j

/-- C8: an input buffer that nowhere contains the three-byte delimiter
sequence `CR LF NUL` makes `load` fail with the missing-delimiter format
error `noDelimiter` — it neither fails in another way nor returns a table. -/
theorem c8_missing_delimiter_rejected (buffer : List Nat)
    (h : ∀ i, ¬ delimAt buffer i) :
    load buffer = Except.error QvdErr.noDelimiter := by
  have hf : findDelim buffer = none := (findDelim_eq_none_iff buffer).mpr h
  simp [load, parseHeader, hf, bind, Except.bind]

/-- Witness for C8: the concrete delimiter-free buffer `[1, 2, 3]`. -/
theorem c8_missing_delimiter_rejected_witness :
    (∀ i, ¬ delimAt ([1, 2, 3] : List Nat) i) ∧
      load [1, 2, 3] = Except.error QvdErr.noDelimiter := by
  have h : ∀ i, ¬ delimAt ([1, 2, 3] : List Nat) i :=
    (findDelim_eq_none_iff [1, 2, 3]).mp rfl
  exact ⟨h, c8_missing_delimiter_rejected [1, 2, 3] h⟩

/-- C9 counterexample: on the successfully decoded `goodFile` table the
negative index `-1` (outside `[0, rowCount)`) does not fail with the
distinct out-of-bounds condition: `this._indexTable[-1]` is `undefined` and
the subsequent `.map` throws a generic `TypeError` instead. -/
theorem c9_counterexample :
    ∃ s, load goodFile = Except.ok s ∧
      getRow s (-1) = Except.error QvdErr.undefAccess ∧
      QvdErr.undefAccess ≠ QvdErr.outOfBounds := by
  refine ⟨_, rfl, rfl, by decide⟩

/-- C9 (amended): a row request at or above the declared row count fails with
the distinct out-of-bounds error, while a negative row request fails with a
generic `TypeError` (indexing the `undefined` row); in neither case is a
clamped, default, or empty row returned. -/
theorem c9_out_of_range_requests (s : QvdFileState) (i n : Int)
    (hn : numberOfRows s = Except.ok (some n)) (hn0 : 0 ≤ n) :
    (n ≤ i → getRow s i = Except.error QvdErr.outOfBounds) ∧
    (i < 0 → getRow s i = Except.error QvdErr.undefAccess) := by
  constructor
  · intro hge
    simp [getRow, hn, bind, Except.bind, jsGE, hge]
  · intro hlt
    have hnle : ¬ n ≤ i := by omega
    have hneg : ¬ (0 : Int) ≤ i := by omega
    simp [getRow, hn, bind, Except.bind, jsGE, hnle, arrGetI, hneg]

/-- Witness for C9 (amended): on the decoded `goodFile` table (2 rows), the
requests `row(2)` (one past the end) and `row(-1)` fail as described. -/
theorem c9_out_of_range_requests_witness :
    numberOfRows goodState = Except.ok (some 2) ∧
      getRow goodState 2 = Except.error QvdErr.outOfBounds ∧
      getRow goodState (-1) = Except.error QvdErr.undefAccess :=
  ⟨rfl,
    (c9_out_of_range_requests goodState 2 2 rfl (by decide)).1 (by decide),
    (c9_out_of_range_requests goodState (-1) 2 rfl (by decide)).2 (by decide)⟩

/-- C1: on any decoded state, a row index in `[0, rowCount)` whose record
exists yields a row whose cell at each field position is the primary-value
resolution — the string value if present, else the integer value, else the
double value, else null — of the symbol the record's index selects in that
field's symbol list. -/
theorem c1_row_resolves_primary_values (s : QvdFileState) (r n : Int)
    (rec : List (Option Int))
    (hn : numberOfRows s = Except.ok (some n))
    (h0 : 0 ≤ r) (hr : r < n)
    (hrec : arrGetI s.indexTable r = some rec)
    (hlen : rec.length ≤ s.symbolTable.length) :
    ∃ row, getRow s r = Except.ok row ∧
      ∀ f si col v, rec.get? f = some si →
        s.symbolTable.get? f = some col →
        arrGetO col si = some v →
        row.get? f = some (match v.stringValue with
          | some sv => Cell.str sv
          | none => match v.intValue with
            | some iv => Cell.int iv
            | none => match v.doubleValue with
              | some dv => Cell.dbl dv
              | none => Cell.null) := by
  have hnle : ¬ n ≤ r := by omega
  obtain ⟨row, hrow, _, hspec⟩ :=
    resolveRow_ok s.symbolTable rec 0 (by omega)
  refine ⟨row, ?_, ?_⟩
  · simp [getRow, hn, bind, Except.bind, jsGE, hnle, hrec, hrow]
  · intro f si col v hf hcol hv
    have := hspec f si col hf (by simpa using hcol)
    rw [this, cellOf, hv]
    rfl

/-- Witness for C1: row 0 of the decoded `goodFile` table selects symbol 0 of
field `A`, the string symbol `"x"`, and the cell is `"x"`. -/
theorem c1_row_resolves_primary_values_witness :
    numberOfRows goodState = Except.ok (some 2) ∧
      arrGetI goodState.indexTable 0 = some [some 0, some 0] ∧
      ∃ row, getRow goodState 0 = Except.ok row ∧
        row.get? 0 = some (Cell.str "x") := by
  refine ⟨rfl, rfl, ?_⟩
  obtain ⟨row, hrow, hspec⟩ :=
    c1_row_resolves_primary_values goodState 0 2 [some 0, some 0]
      rfl (by decide) (by decide) rfl (by decide)
  exact ⟨row, hrow, hspec 0 (some 0) (goodState.symbolTable.get ⟨0, by decide⟩)
    (QvdValue.fromStringValue "x") rfl (by decide) (by decide)⟩

/-- C10: on any decoded state, a row index in `[0, rowCount)` whose record
exists yields a row without any error even when a record entry lies outside
the field's symbol list; such a cell resolves to the absent value
(`undefined`) through the optional-chained lookup, not to an exception or a
substituted symbol. -/
theorem c10_out_of_range_symbol_is_undefined (s : QvdFileState) (r n : Int)
    (rec : List (Option Int))
    (hn : numberOfRows s = Except.ok (some n))
    (h0 : 0 ≤ r) (hr : r < n)
    (hrec : arrGetI s.indexTable r = some rec)
    (hlen : rec.length ≤ s.symbolTable.length) :
    ∃ row, getRow s r = Except.ok row ∧
      ∀ f si col, rec.get? f = some si →
        s.symbolTable.get? f = some col →
        arrGetO col si = none →
        row.get? f = some Cell.undef := by
  have hnle : ¬ n ≤ r := by omega
  obtain ⟨row, hrow, _, hspec⟩ :=
    resolveRow_ok s.symbolTable rec 0 (by omega)
  refine ⟨row, ?_, ?_⟩
  · simp [getRow, hn, bind, Except.bind, jsGE, hnle, hrec, hrow]
  · intro f si col hf hcol hv
    have := hspec f si col hf (by simpa using hcol)
    rw [this, cellOf, hv]

/-- Witness for C10: in the decoded `c10File` table field `A`'s bias of 7
pushes every symbol index outside the two-symbol list, and the affected cell
of row 0 is the absent value. -/
theorem c10_out_of_range_symbol_is_undefined_witness :
    numberOfRows c10State = Except.ok (some 2) ∧
      arrGetI c10State.indexTable 0 = some [some 7, some 0] ∧
      ∃ row, getRow c10State 0 = Except.ok row ∧
        row.get? 0 = some Cell.undef := by
  refine ⟨rfl, rfl, ?_⟩
  obtain ⟨row, hrow, hspec⟩ :=
    c10_out_of_range_symbol_is_undefined c10State 0 2 [some 7, some 0]
      rfl (by decide) (by decide) rfl (by decide)
  exact ⟨row, hrow, hspec 0 (some 7) (c10State.symbolTable.get ⟨0, by decide⟩)
    rfl (by decide) (by decide)⟩

/-- C3 counterexample: a field with `bitWidth` 0 and `bias` 1 decodes to
symbol index 1, not 0 — the source adds `bias` unconditionally after the
`bitWidth === 0` branch. -/
theorem c3_counterexample :
    fieldSymbolIndexOf (recordMask [0]) (some 0) (some 0) (some 1) = some 1 ∧
      (1 : Int) ≠ 0 := ⟨rfl, by decide⟩

/-- C3 (amended): a field with `bitWidth` 0 skips the bit extraction and
uses raw index 0, but the field's `bias` is still added, so the resulting
symbol index equals the bias (it is 0 exactly when the bias is 0). -/
theorem c3_bitwidth_zero_yields_bias (mask : List Nat) (bo : Option Int)
    (bias : Int) :
    fieldSymbolIndexOf mask bo (some 0) (some bias) = some bias := by
  simp [fieldSymbolIndexOf, addO]

/-- C4 (code bug): the one-field, two-row file of the concrete scenario does
not decode at all: with `explicitArray: false` the single `QvdFieldHeader`
element of the XML header collapses to a plain object rather than a list of
one field, and `_parseSymbolTable`'s `fields.map` throws a `TypeError`. -/
theorem c4_single_field_file_fails_to_load :
    load c4File = Except.error QvdErr.notAFunction := rfl

/-- C5 counterexample: `c5File` declares `NoOfRecords` 5 while its index
section decodes to only 2 records, yet `load` succeeds — the decoder has no
record-count consistency check. -/
theorem c5_counterexample :
    ∃ s, load c5File = Except.ok s ∧
      numberOfRows s = Except.ok (some 5) ∧
      s.indexTable.length = 2 ∧ (2 : Nat) ≠ 5 := by
  refine ⟨_, rfl, rfl, rfl, by decide⟩

/-- C5 (amended): a mismatch between the decoded record count and the
header's declared record count does not make the decode fail; the mismatch
only surfaces later, e.g. as a generic `TypeError` when a declared-but-
undecoded row such as row 2 is requested. -/
theorem c5_mismatch_not_checked :
    ∃ s, load c5File = Except.ok s ∧
      numberOfRows s = Except.ok (some 5) ∧
      s.indexTable.length ≠ 5 ∧
      getRow s 2 = Except.error QvdErr.undefAccess := by
  refine ⟨_, rfl, rfl, by decide, rfl⟩

/-- C6 counterexample: `c6File` carries the non-numeric record count
`"abc"`, yet `load` succeeds and even serves rows; `numberOfRows` becomes
`NaN` instead of a format error being raised. -/
theorem c6_counterexample :
    ∃ s, load c6File = Except.ok s ∧
      numberOfRows s = Except.ok none ∧
      getRow s 0 = Except.ok [Cell.str "x", Cell.int 7] := by
  refine ⟨_, rfl, rfl, rfl⟩

/-- C6 (amended): missing or non-numeric numeric header attributes are not
validated: `parseInt` yields `NaN`, which propagates silently — with a
non-numeric `RecordByteSize` the decode still succeeds and produces a single
empty-record row of zero-plus-bias indices. -/
theorem c6_nan_propagates_silently :
    ∃ s, load c6bFile = Except.ok s ∧
      s.indexTable = [[some 0, some 0]] := by
  refine ⟨_, rfl, rfl⟩

/-- C7 counterexample: in `c7File` field `A` declares a 3-byte symbol range
holding an integer symbol that occupies 5 bytes (tag plus 4 payload bytes),
overrunning the declared range into field `B`'s bytes, yet `load` succeeds
with the overrunning symbol decoded — no consistency fault is surfaced. -/
theorem c7_counterexample :
    ∃ s, load c7File = Except.ok s ∧
      s.symbolTable =
        [[QvdValue.fromIntValue 10], [QvdValue.fromStringValue "B"]] := by
  refine ⟨_, rfl, rfl⟩

/-- C7 (amended): a field's symbol scan merely stops at the first tag
position at or beyond the declared end; a payload overrunning the declared
length is read from the bytes beyond it without any error, and the decoded
table is served as usual. -/
theorem c7_overrun_read_silently :
    ∃ s, load c7File = Except.ok s ∧
      s.symbolTable.get? 0 = some [QvdValue.fromIntValue 10] ∧
      getRow s 0 = Except.ok [Cell.int 10, Cell.str "B"] := by
  refine ⟨_, rfl, rfl, rfl⟩

/-! ### Bit-level characterisation of the index decoder (claim C2) -/

/-- Bit of a bit list at a position, `0` past the end. -/
def bitGet (l : List Nat) (j : Nat) : Nat :=
  (l.get? j).getD 0

/-- The little-endian per-byte expansion: `toBin8` reversed. -/
def flatBitsLE : List Nat → List Nat
  | [] => []
  | b :: rest => (toBin8 b).reverse ++ flatBitsLE rest

theorem flatBits_append (xs ys : List Nat) :
    flatBits (xs ++ ys) = flatBits xs ++ flatBits ys := by
  induction xs with
  | nil => rfl
  | cons b rest ih => simp [flatBits, ih]

/-- The byte-reverse / expand / bit-reverse dance of `_parseIndexTable`
produces exactly the concatenation of the least-significant-bit-first
expansions of the record's bytes in order. -/
theorem recordMask_eq_flatBitsLE (record : List Nat) :
    recordMask record = flatBitsLE record := by
  induction record with
  | nil => rfl
  | cons b rest ih =>
    unfold recordMask at ih ⊢
    rw [List.reverse_cons, flatBits_append, List.reverse_append, ih]
    simp [flatBits, flatBitsLE]

/-- Bit `j` of the little-endian bit view of a record is bit `j` of the
record's little-endian numeric value. -/
theorem bitGet_flatBitsLE (record : List Nat) (hb : ∀ b ∈ record, b < 256) :
    ∀ j, bitGet (flatBitsLE record) j = leVal record / 2 ^ j % 2 := by
  induction record with
  | nil =>
    intro j
    simp [flatBitsLE, bitGet, leVal, List.get?, Nat.zero_div]
  | cons b rest ih =>
    have hb0 : b < 256 := hb b (List.mem_cons_self b rest)
    have hbr : ∀ x ∈ rest, x < 256 := fun x hx => hb x (List.mem_cons_of_mem b hx)
    intro j
    have hrev : (toBin8 b).reverse =
        [b % 2, b / 2 % 2, b / 4 % 2, b / 8 % 2,
         b / 16 % 2, b / 32 % 2, b / 64 % 2, b / 128 % 2] := rfl
    have hL : leVal (b :: rest) = b + 256 * leVal rest := rfl
    by_cases hj : j < 8
    · unfold flatBitsLE
      rw [hrev, hL]
      interval_cases j <;>
        · simp only [bitGet, List.cons_append, List.get?, Option.getD_some]
          norm_num
          omega
    · obtain ⟨k, rfl⟩ : ∃ k, j = 8 + k := ⟨j - 8, by omega⟩
      unfold flatBitsLE
      have hstep : bitGet ((toBin8 b).reverse ++ flatBitsLE rest) (8 + k)
          = bitGet (flatBitsLE rest) k := by
        unfold bitGet
        rw [List.get?_append_right (by rw [hrev]; simp)]
        rw [hrev]
        norm_num
      rw [hstep, ih hbr k, hL]
      have h1 : (2 : Nat) ^ (8 + k) = 256 * 2 ^ k := by
        rw [pow_add]; norm_num
      rw [h1, ← Nat.div_div_eq_div_mul]
      have h2 : (b + 256 * leVal rest) / 256 = leVal rest := by
        rw [Nat.add_mul_div_left _ _ (by norm_num : (0 : Nat) < 256)]
        rw [Nat.div_eq_of_lt hb0, Nat.zero_add]
      rw [h2]

theorem convGo_eq (l : List Nat) :
    ∀ j v, convGo l j v = v + ∑ i in Finset.range l.length, bitGet l i * 2 ^ (j + i) := by
  induction l with
  | nil => intro j v; simp [convGo]
  | cons b rest ih =>
    intro j v
    rw [convGo, ih]
    have hsum : ∑ i in Finset.range (rest.length + 1), bitGet (b :: rest) i * 2 ^ (j + i)
        = b * 2 ^ j + ∑ i in Finset.range rest.length, bitGet rest i * 2 ^ ((j + 1) + i) := by
      rw [Finset.sum_range_succ']
      have h0 : bitGet (b :: rest) 0 * 2 ^ (j + 0) = b * 2 ^ j := by
        simp [bitGet, List.get?]
      rw [h0, Nat.add_comm]
      congr 1
      apply Finset.sum_congr rfl
      intro i _
      have hbit : bitGet (b :: rest) (i + 1) = bitGet rest i := rfl
      have hexp : j + (i + 1) = (j + 1) + i := by omega
      rw [hbit, hexp]
    rw [List.length_cons, hsum]
    omega

theorem convertBits_eq_sum (l : List Nat) (n : Nat) (h : l.length ≤ n) :
    convertBitsToInt32 l = ∑ i in Finset.range n, bitGet l i * 2 ^ i := by
  have hpad : ∑ i in Finset.range n, bitGet l i * 2 ^ i
      = ∑ i in Finset.range l.length, bitGet l i * 2 ^ i := by
    symm
    apply Finset.sum_subset (Finset.range_subset.mpr h)
    intro i _ hi
    have hlen : l.length ≤ i := by
      have := Finset.mem_range.not.mp hi
      omega
    have hnone : l.get? i = none := List.get?_eq_none.mpr hlen
    have hz : bitGet l i = 0 := by unfold bitGet; rw [hnone]; rfl
    rw [hz, Nat.zero_mul]
  rw [hpad]
  cases l with
  | nil => simp [convertBitsToInt32]
  | cons b rest =>
    unfold convertBitsToInt32
    rw [if_neg (by simp), convGo_eq]
    simp

theorem bitGet_take (l : List Nat) (m i : Nat) (h : i < m) :
    bitGet (l.take m) i = bitGet l i := by
  unfold bitGet
  rw [List.get?_take h]

theorem bitGet_drop (l : List Nat) (m i : Nat) :
    bitGet (l.drop m) i = bitGet l (m + i) := by
  unfold bitGet
  rw [List.get?_drop]

theorem resolveIdx_natCast (len a : Nat) :
    resolveIdx len (some ((a : Nat) : Int)) = min a len := by
  simp [resolveIdx]

theorem jsSlice_nat {α : Type} (l : List α) (a b : Nat) :
    jsSlice l (some ((a : Nat) : Int)) (some (((a + b : Nat) : Nat) : Int))
      = (l.drop a).take b := by
  unfold jsSlice
  rw [resolveIdx_natCast, resolveIdx_natCast]
  have h1 : l.take (min (a + b) l.length) = l.take (a + b) := by
    rcases le_total (a + b) l.length with h | h
    · rw [min_eq_left h]
    · rw [min_eq_right h, List.take_length, List.take_of_length_le h]
  rw [h1]
  have h2 : (l.take (a + b)).drop (min a l.length) = (l.take (a + b)).drop a := by
    rcases le_total a l.length with h | h
    · rw [min_eq_left h]
    · rw [min_eq_right h]
      have hlen : (l.take (a + b)).length ≤ l.length := by
        rw [List.length_take]; omega
      rw [List.drop_of_length_le (le_trans hlen (le_refl _)),
        List.drop_of_length_le (le_trans hlen h)]
  rw [h2, List.drop_take]
  congr 1
  omega

/-- C2: for a record of bytes and a field with positive bit width, the
decoded symbol index is obtained from the record's little-endian
bit-addressable view — built by reversing the byte order, expanding each
byte most-significant-bit-first, concatenating and reversing the whole
string — by taking bits `[bitOffset, bitOffset + bitWidth)`, converting them
positionally (bit `i` contributing `2 ^ i`, no two's-complement), and adding
the field's bias; equivalently, bit `bitOffset + i` of the record's
little-endian value contributes `2 ^ i`. -/
theorem c2_bit_extraction (record : List Nat)
    (hb : ∀ b ∈ record, b < 256) (bo bw : Nat) (bias : Int) (hw : 0 < bw) :
    fieldSymbolIndexOf (recordMask record)
        (some ((bo : Nat) : Int)) (some ((bw : Nat) : Int)) (some bias)
      = some (((∑ i in Finset.range bw,
          leVal record / 2 ^ (bo + i) % 2 * 2 ^ i : Nat) : Int) + bias) := by
  unfold fieldSymbolIndexOf
  have hne : (some ((bw : Nat) : Int)) ≠ (some (0 : Int)) := by
    intro h
    have := Option.some.inj h
    omega
  rw [if_neg hne]
  have haddO : addO (some ((bo : Nat) : Int)) (some ((bw : Nat) : Int))
      = some (((bo + bw : Nat) : Int)) := by
    simp [addO]
  rw [haddO, jsSlice_nat]
  have hconv : convertBitsToInt32 (((recordMask record).drop bo).take bw)
      = ∑ i in Finset.range bw, leVal record / 2 ^ (bo + i) % 2 * 2 ^ i := by
    rw [convertBits_eq_sum _ bw (by rw [List.length_take]; exact min_le_left _ _)]
    apply Finset.sum_congr rfl
    intro i hi
    rw [bitGet_take _ _ _ (Finset.mem_range.mp hi), bitGet_drop,
      recordMask_eq_flatBitsLE, bitGet_flatBitsLE record hb]
  rw [hconv]
  simp [addO]

/-- Witness for C2: record bytes `[0xAB, 0x0C]` (value `3243`), bit offset 4,
bit width 8, bias 0: the extracted index is `202 = (3243 >> 4) mod 256`. -/
theorem c2_bit_extraction_witness :
    (∀ x ∈ ([171, 12] : List Nat), x < 256) ∧ 0 < 8 ∧
      fieldSymbolIndexOf (recordMask [171, 12]) (some 4) (some 8) (some 0)
        = some (((∑ i in Finset.range 8,
            leVal [171, 12] / 2 ^ (4 + i) % 2 * 2 ^ i : Nat) : Int) + 0) :=
  ⟨by decide, by decide, c2_bit_extraction [171, 12] (by decide) 4 8 0 (by decide)⟩

end Qdata
